import Mathlib

/-!
Verification of the meeting-room booking engine.

Shallow embedding of the repository's core logic:
* `app.py` — conflict resolution and negotiation (`overlaps`,
  `find_conflicting_booking`, `suggest_for_request`);
* `find_available_rooms.py` — batch room availability
  (`get_available_rooms_in_window`, the chunk loop of
  `CheckRoomAvailability._run`);
* `suggest_participant_availability.py` — interval merging
  (`merge_intervals`), work-window segmentation (`generate_work_blocks`,
  `split_working_hours`) and the result-accumulation loop of
  `SuggestParticipantAvailability._run`.

Instants are modelled as integer minutes (`Int`, or `Nat` where day
arithmetic via `/ 1440` and `% 1440` is needed; day `0` is taken to be a
Monday so that Python's `date.weekday()` becomes `day % 7`).
-/

namespace Meetings

/-- A meeting room, as in `app.py` (`Room` dataclass). -/
structure Room where
  id : String
  capacity : Int
deriving DecidableEq, Repr

/-- A booking, as in `app.py` (`Booking` dataclass).  The Python field
`end` is called `stop` here because `end` is a Lean keyword. -/
structure Booking where
  room : Room
  start : Int
  stop : Int
  attendees : Int
  user : String
deriving DecidableEq, Repr

/-- `app.py` `overlaps`: `not (a.end <= b.start or a.start >= b.end)`. -/
def overlaps (a b : Booking) : Bool :=
  !(decide (a.stop ≤ b.start) || decide (a.start ≥ b.stop))

/-- `app.py` `find_conflicting_booking`: first booking in the same room
that overlaps with `req`, or `none`. -/
def find_conflicting_booking (req : Booking) : List Booking → Option Booking
  | [] => none
  | b :: rest =>
    if b.room.id == req.room.id && overlaps req b then some b
    else find_conflicting_booking req rest

/-- The four terminal classifications of `suggest_for_request` (the four
`return` statements of the Python function, stripped of their message
formatting). -/
inductive ResolutionOutcome where
  | confirmed
  | negotiation (conflict : Booking)
  | fallback (offset : Nat) (altStart altEnd : Int)
  | exhausted
deriving DecidableEq, Repr

/-- The loop body of step 3 of `suggest_for_request` (`for i in
range(1, 9)`), over an explicit list of offsets: probe
`start + 30*i` minutes and return the first conflict-free candidate. -/
def scan_fallback (room : Room) (num_people : Int) (start duration : Int)
    (existing : List Booking) : List Nat → ResolutionOutcome
  | [] => .exhausted
  | i :: rest =>
    let alt_start := start + 30 * (i : Int)
    let alt_end := alt_start + duration
    let alt_req : Booking := ⟨room, alt_start, alt_end, num_people, "you"⟩
    if (find_conflicting_booking alt_req existing).isNone then
      .fallback i alt_start alt_end
    else scan_fallback room num_people start duration existing rest

/-- `app.py` `suggest_for_request`: confirm, negotiate, fall back, or
give up. -/
def suggest_for_request (room : Room) (num_people : Int) (start duration : Int)
    (existing : List Booking) : ResolutionOutcome :=
  let req : Booking := ⟨room, start, start + duration, num_people, "you"⟩
  match find_conflicting_booking req existing with
  | none => .confirmed
  | some conflict =>
    if conflict.attendees < num_people then .negotiation conflict
    else scan_fallback room num_people start duration existing (List.range' 1 8)

/-- Whether the probe at offset `i` minutes*30 past `start` hits a
conflicting booking (the test of the fallback loop body). -/
def conflictedAt (room : Room) (num_people : Int) (start duration : Int)
    (existing : List Booking) (i : Nat) : Bool :=
  (find_conflicting_booking
    ⟨room, start + 30 * (i : Int), start + 30 * (i : Int) + duration, num_people, "you"⟩
    existing).isSome

/-! Embedding of `find_available_rooms.py`. -/

/-- The part of a per-calendar freebusy response that
`get_available_rooms_in_window` and the chunk loop read: the `busy`
list (as minute intervals) and whether an `errors` key is present and
truthy. -/
structure CalInfo where
  busy : List (Int × Int)
  errors : Bool
deriving DecidableEq, Repr

/-- The inline overlap check of `get_available_rooms_in_window`
(`find_available_rooms.py` line 248):
`not (end <= busy_start or start >= busy_end)`. -/
def window_busy_overlap (start stop : Int) (busy : Int × Int) : Bool :=
  !(decide (stop ≤ busy.1) || decide (start ≥ busy.2))

/-- `find_available_rooms.py` `get_available_rooms_in_window`: walk the
freebusy response; skip calendars with errors; a calendar is appended to
the free list iff none of its busy periods overlaps the window. -/
def get_available_rooms_in_window : List (String × CalInfo) → Int → Int → List String
  | [], _, _ => []
  | (calendar_id, info) :: rest, start, stop =>
    if info.errors then get_available_rooms_in_window rest start stop
    else if info.busy.all (fun b => !window_busy_overlap start stop b) then
      calendar_id :: get_available_rooms_in_window rest start stop
    else get_available_rooms_in_window rest start stop

/-- One entry of the `resp` list built by `CheckRoomAvailability._run`:
a window together with the accumulated free-room list.  The Python value
is a dict with keys `start`, `end` and `available_rooms`; being a
non-empty dict it is always truthy. -/
structure WindowResp where
  start : Int
  stop : Int
  available_rooms : List String
deriving DecidableEq, Repr

/-- Python truthiness of one `resp` entry: a dict with three keys is
always non-empty, hence always truthy. -/
def window_resp_truthy (_ : WindowResp) : Bool :=
  true

/-- `find_available_rooms.py` lines 215–217:
`all([x for x in resp if len(x["available_rooms"]) > 0])` — `all` over
the *filtered list of window dicts* (not over emptiness flags). -/
def do_all_windows_have_available_rooms (resp : List WindowResp) : Bool :=
  (resp.filter (fun x => x.available_rooms.length > 0)).all window_resp_truthy

/-- The per-chunk, per-window update of `CheckRoomAvailability._run`
(lines 200–213): extend `available_rooms` with the chunk's free rooms and
re-sort by seating capacity.  Python's `sorted` is a stable sort by the
key; `List.insertionSort` with a reflexive `≤`-style relation computes
the same (unique) stable sort. -/
def update_window (cap : String → Int) (freebusy : List (String × CalInfo))
    (w : WindowResp) : WindowResp :=
  { w with
    available_rooms :=
      (w.available_rooms ++ get_available_rooms_in_window freebusy w.start w.stop).insertionSort
        (fun a b => cap a ≤ cap b) }

/-- The chunk loop of `CheckRoomAvailability._run` (lines 188–220): for
each chunk's freebusy response, update every window, then break when
`do_all_windows_have_available_rooms`. -/
def check_room_availability_loop (cap : String → Int)
    (chunks : List (List (String × CalInfo))) (resp : List WindowResp) :
    List WindowResp :=
  match chunks with
  | [] => resp
  | freebusy :: rest =>
    let resp' := resp.map (update_window cap freebusy)
    if do_all_windows_have_available_rooms resp' then resp'
    else check_room_availability_loop cap rest resp'

/-! Helper lemmas about `find_conflicting_booking` and `scan_fallback`. -/

theorem opt_isSome_of_not_isNone {α : Type} {o : Option α} (h : ¬ o.isNone = true) :
    o.isSome = true := by
  cases o <;> simp_all

theorem opt_isSome_false_of_isNone {α : Type} {o : Option α} (h : o.isNone = true) :
    o.isSome = false := by
  cases o <;> simp_all

theorem opt_isNone_of_isSome_false {α : Type} {o : Option α} (h : o.isSome = false) :
    o.isNone = true := by
  cases o <;> simp_all

theorem find_conflicting_eq_some {req b : Booking} {l : List Booking}
    (h : find_conflicting_booking req l = some b) :
    b ∈ l ∧ b.room.id = req.room.id ∧ overlaps req b = true := by
  induction l with
  | nil => simp [find_conflicting_booking] at h
  | cons x rest ih =>
    rw [find_conflicting_booking] at h
    by_cases hc : (x.room.id == req.room.id && overlaps req x) = true
    · rw [if_pos hc] at h
      obtain ⟨h1, h2⟩ := Bool.and_eq_true_iff.mp hc
      cases h
      exact ⟨List.mem_cons_self _ _, by simpa using h1, h2⟩
    · rw [if_neg hc] at h
      obtain ⟨hm, hr, ho⟩ := ih h
      exact ⟨List.mem_cons_of_mem _ hm, hr, ho⟩

theorem find_conflicting_isSome_iff (req : Booking) (l : List Booking) :
    (find_conflicting_booking req l).isSome = true ↔
      ∃ b ∈ l, b.room.id = req.room.id ∧ overlaps req b = true := by
  induction l with
  | nil => simp [find_conflicting_booking]
  | cons x rest ih =>
    rw [find_conflicting_booking]
    by_cases hc : (x.room.id == req.room.id && overlaps req x) = true
    · rw [if_pos hc]
      obtain ⟨h1, h2⟩ := Bool.and_eq_true_iff.mp hc
      simp only [Option.isSome_some, true_iff]
      exact ⟨x, List.mem_cons_self _ _, by simpa using h1, h2⟩
    · rw [if_neg hc]
      rw [ih]
      constructor
      · rintro ⟨b, hb, hr, ho⟩
        exact ⟨b, List.mem_cons_of_mem _ hb, hr, ho⟩
      · rintro ⟨b, hb, hr, ho⟩
        rcases List.mem_cons.mp hb with rfl | hb
        · exact absurd (Bool.and_eq_true_iff.mpr ⟨by simpa using hr, ho⟩) hc
        · exact ⟨b, hb, hr, ho⟩

theorem scan_fallback_ne_confirmed (room : Room) (n start dur : Int)
    (existing : List Booking) (l : List Nat) :
    scan_fallback room n start dur existing l ≠ .confirmed := by
  induction l with
  | nil => simp [scan_fallback]
  | cons i rest ih =>
    rw [scan_fallback]
    split
    · simp
    · exact ih

theorem scan_fallback_ne_negotiation (room : Room) (n start dur : Int)
    (existing : List Booking) (l : List Nat) (b : Booking) :
    scan_fallback room n start dur existing l ≠ .negotiation b := by
  induction l with
  | nil => simp [scan_fallback]
  | cons i rest ih =>
    rw [scan_fallback]
    split
    · simp
    · exact ih

theorem scan_fallback_eq_exhausted_iff (room : Room) (n start dur : Int)
    (existing : List Booking) (l : List Nat) :
    scan_fallback room n start dur existing l = .exhausted ↔
      ∀ i ∈ l, conflictedAt room n start dur existing i = true := by
  induction l with
  | nil => simp [scan_fallback]
  | cons i rest ih =>
    rw [scan_fallback]
    split
    · rename_i hnone
      simp only [List.mem_cons]
      constructor
      · intro h; cases h
      · intro h
        have htrue := h i (Or.inl rfl)
        rw [conflictedAt] at htrue
        rw [opt_isSome_false_of_isNone hnone] at htrue
        cases htrue
    · rename_i hnone
      rw [ih]
      simp only [List.mem_cons]
      constructor
      · intro h j hj
        rcases hj with rfl | hj
        · rw [conflictedAt]
          exact opt_isSome_of_not_isNone hnone
        · exact h j hj
      · intro h j hj
        exact h j (Or.inr hj)

theorem scan_fallback_eq_fallback (room : Room) (n start dur : Int)
    (existing : List Booking) (l : List Nat) (i : Nat) (s e : Int)
    (h : scan_fallback room n start dur existing l = .fallback i s e) :
    s = start + 30 * (i : Int) ∧ e = s + dur ∧
      conflictedAt room n start dur existing i = false ∧
      ∃ l₁ l₂, l = l₁ ++ i :: l₂ ∧
        ∀ j ∈ l₁, conflictedAt room n start dur existing j = true := by
  induction l with
  | nil => simp [scan_fallback] at h
  | cons k rest ih =>
    rw [scan_fallback] at h
    split at h
    · rename_i hnone
      cases h
      refine ⟨rfl, rfl, ?_, [], rest, rfl, by simp⟩
      rw [conflictedAt]
      exact opt_isSome_false_of_isNone hnone
    · rename_i hnone
      obtain ⟨hs, he, hci, l₁, l₂, hl, hall⟩ := ih h
      refine ⟨hs, he, hci, k :: l₁, l₂, by rw [hl, List.cons_append], ?_⟩
      intro j hj
      rcases List.mem_cons.mp hj with rfl | hj
      · rw [conflictedAt]
        exact opt_isSome_of_not_isNone hnone
      · exact hall j hj

theorem scan_fallback_first_free (room : Room) (n start dur : Int)
    (existing : List Booking) (l : List Nat) (i : Nat) (hi : i ∈ l)
    (hfree : conflictedAt room n start dur existing i = false) :
    ∃ i' s e, scan_fallback room n start dur existing l = .fallback i' s e := by
  induction l with
  | nil => simp at hi
  | cons k rest ih =>
    rw [scan_fallback]
    split
    · exact ⟨k, _, _, rfl⟩
    · rename_i hnone
      rcases List.mem_cons.mp hi with rfl | hi
      · exfalso
        rw [conflictedAt] at hfree
        exact hnone (opt_isNone_of_isSome_false hfree)
      · exact ih hi

theorem range'_one_eight : List.range' 1 8 = [1, 2, 3, 4, 5, 6, 7, 8] := rfl

theorem mem_range'_one_eight (i : Nat) : i ∈ List.range' 1 8 ↔ 1 ≤ i ∧ i ≤ 8 := by
  rw [range'_one_eight]
  simp only [List.mem_cons, List.not_mem_nil, or_false]
  omega

theorem conflictedAt_true_iff (room : Room) (n start dur : Int)
    (existing : List Booking) (i : Nat) :
    conflictedAt room n start dur existing i = true ↔
      ∃ b ∈ existing, b.room.id = room.id ∧
        overlaps ⟨room, start + 30 * (i : Int), start + 30 * (i : Int) + dur, n, "you"⟩ b
          = true := by
  rw [conflictedAt]
  exact find_conflicting_isSome_iff _ _

/-- Full behaviour of the fallback scan on the concrete offset list
`range' 1 8` of `suggest_for_request`, in the `fallback` case. -/
theorem scan_range_fallback_spec (room : Room) (n start dur : Int)
    (existing : List Booking) (i : Nat) (s e : Int)
    (h : scan_fallback room n start dur existing (List.range' 1 8) = .fallback i s e) :
    1 ≤ i ∧ i ≤ 8 ∧ s = start + 30 * (i : Int) ∧ e = s + dur ∧
      conflictedAt room n start dur existing i = false ∧
      ∀ j : Nat, 1 ≤ j → j < i → conflictedAt room n start dur existing j = true := by
  obtain ⟨hs, he, hci, l₁, l₂, hl, hall⟩ := scan_fallback_eq_fallback _ _ _ _ _ _ _ _ _ h
  have hpw : (List.range' 1 8).Pairwise (· < ·) := by decide
  rw [hl] at hpw
  obtain ⟨hpw₁, hpw₂, hcross⟩ := List.pairwise_append.mp hpw
  have hmem_i : i ∈ List.range' 1 8 := by
    rw [hl]
    exact List.mem_append_right _ (List.mem_cons_self _ _)
  obtain ⟨hi1, hi8⟩ := (mem_range'_one_eight i).mp hmem_i
  refine ⟨hi1, hi8, hs, he, hci, ?_⟩
  intro j hj1 hji
  have hmem_j : j ∈ List.range' 1 8 := (mem_range'_one_eight j).mpr ⟨hj1, by omega⟩
  rw [hl] at hmem_j
  rcases List.mem_append.mp hmem_j with hj | hj
  · exact hall j hj
  · rcases List.mem_cons.mp hj with rfl | hj
    · omega
    · have := (List.pairwise_cons.mp hpw₂).1 j hj
      omega

theorem bool_eq_of_iff {x y : Bool} (h : x = true ↔ y = true) : x = y := by
  cases x <;> cases y <;> simp_all

theorem overlaps_eq_true_iff (a b : Booking) :
    overlaps a b = true ↔ b.start < a.stop ∧ a.start < b.stop := by
  rw [overlaps]
  simp only [Bool.not_eq_true', Bool.or_eq_false_iff, decide_eq_false_iff_not]
  omega

theorem window_busy_overlap_eq_true_iff (start stop : Int) (busy : Int × Int) :
    window_busy_overlap start stop busy = true ↔ busy.1 < stop ∧ start < busy.2 := by
  rw [window_busy_overlap]
  simp only [Bool.not_eq_true', Bool.or_eq_false_iff, decide_eq_false_iff_not]
  omega

/-! Claim theorems about `app.py`. -/

/-- C1: `suggest_for_request` produces a negotiation outcome iff the first
existing booking in the same room overlapping the requested interval has
strictly fewer attendees than the requested party size; when the first
conflict has equal or more attendees, the resolver runs the fallback scan
and never offers negotiation. -/
theorem negotiation_iff_first_conflict_smaller (room : Room) (num_people : Int)
    (start duration : Int) (existing : List Booking) :
    (∀ b : Booking,
      suggest_for_request room num_people start duration existing = .negotiation b ↔
        find_conflicting_booking ⟨room, start, start + duration, num_people, "you"⟩ existing
            = some b ∧ b.attendees < num_people)
    ∧ (∀ b : Booking,
        find_conflicting_booking ⟨room, start, start + duration, num_people, "you"⟩ existing
            = some b →
        ¬ b.attendees < num_people →
          suggest_for_request room num_people start duration existing =
            scan_fallback room num_people start duration existing (List.range' 1 8)
          ∧ ∀ c : Booking,
              suggest_for_request room num_people start duration existing ≠ .negotiation c) := by
  rw [suggest_for_request]
  cases hfc : find_conflicting_booking ⟨room, start, start + duration, num_people, "you"⟩
      existing with
  | none =>
    constructor
    · intro b
      simp
    · intro b hb
      cases hb
  | some conflict =>
    dsimp only
    by_cases hlt : conflict.attendees < num_people
    · rw [if_pos hlt]
      constructor
      · intro b
        constructor
        · intro h
          cases h
          exact ⟨rfl, hlt⟩
        · rintro ⟨hsome, _⟩
          cases hsome
          rfl
      · intro b hb hnb
        cases hb
        exact absurd hlt hnb
    · rw [if_neg hlt]
      constructor
      · intro b
        constructor
        · intro h
          exact absurd h (scan_fallback_ne_negotiation _ _ _ _ _ _ _)
        · rintro ⟨hsome, hblt⟩
          cases hsome
          exact absurd hblt hlt
      · intro b hb hnb
        exact ⟨rfl, fun c => scan_fallback_ne_negotiation _ _ _ _ _ _ _⟩

/-- C1 witness: with Room A booked 14:00–15:00 by 2 attendees and a
request for 5 people at 14:00, negotiation is offered. -/
theorem negotiation_iff_first_conflict_smaller_witness :
    suggest_for_request ⟨"Room A", 5⟩ 5 840 60
        [⟨⟨"Room A", 5⟩, 840, 900, 2, "alice"⟩] =
      .negotiation ⟨⟨"Room A", 5⟩, 840, 900, 2, "alice"⟩ :=
  ((negotiation_iff_first_conflict_smaller ⟨"Room A", 5⟩ 5 840 60
      [⟨⟨"Room A", 5⟩, 840, 900, 2, "alice"⟩]).1
    ⟨⟨"Room A", 5⟩, 840, 900, 2, "alice"⟩).mpr ⟨by decide, by decide⟩

/-- C2: the fallback scan probes offsets 1 through 8 (30-minute steps up
to 4 hours ahead), is exhausted iff all 8 candidates are conflicted,
returns only candidates in that range with all earlier candidates
conflicted, and succeeds whenever some candidate in range is free. -/
theorem fallback_scan_first_of_eight (room : Room) (num_people : Int)
    (start duration : Int) (existing : List Booking) :
    (scan_fallback room num_people start duration existing (List.range' 1 8) = .exhausted ↔
      ∀ i : Nat, 1 ≤ i → i ≤ 8 →
        conflictedAt room num_people start duration existing i = true)
    ∧ (∀ (i : Nat) (s e : Int),
        scan_fallback room num_people start duration existing (List.range' 1 8)
            = .fallback i s e →
          1 ≤ i ∧ i ≤ 8 ∧ s = start + 30 * (i : Int) ∧ e = s + duration ∧
            conflictedAt room num_people start duration existing i = false ∧
            ∀ j : Nat, 1 ≤ j → j < i →
              conflictedAt room num_people start duration existing j = true)
    ∧ (∀ i : Nat, 1 ≤ i → i ≤ 8 →
        conflictedAt room num_people start duration existing i = false →
        ∃ (i' : Nat) (s e : Int),
          scan_fallback room num_people start duration existing (List.range' 1 8)
            = .fallback i' s e) := by
  refine ⟨?_, ?_, ?_⟩
  · rw [scan_fallback_eq_exhausted_iff]
    constructor
    · intro h i h1 h8
      exact h i ((mem_range'_one_eight i).mpr ⟨h1, h8⟩)
    · intro h i hi
      obtain ⟨h1, h8⟩ := (mem_range'_one_eight i).mp hi
      exact h i h1 h8
  · intro i s e h
    exact scan_range_fallback_spec _ _ _ _ _ _ _ _ h
  · intro i h1 h8 hfree
    exact scan_fallback_first_free _ _ _ _ _ _ i ((mem_range'_one_eight i).mpr ⟨h1, h8⟩) hfree

/-- C2 witness: with Room A busy 14:00–15:00, a 1-hour request at 14:00
has its first probe (14:30) conflicted and its second probe (15:00) free,
so the scan returns offset 2; the theorem forces the offset bounds and the
conflictedness of probe 1. -/
theorem fallback_scan_first_of_eight_witness :
    conflictedAt ⟨"Room A", 5⟩ 5 840 60 [⟨⟨"Room A", 5⟩, 840, 900, 5, "alice"⟩] 1 = true ∧
    conflictedAt ⟨"Room A", 5⟩ 5 840 60 [⟨⟨"Room A", 5⟩, 840, 900, 5, "alice"⟩] 2 = false :=
  have h := (fallback_scan_first_of_eight ⟨"Room A", 5⟩ 5 840 60
      [⟨⟨"Room A", 5⟩, 840, 900, 5, "alice"⟩]).2.1 2 900 960 (by decide)
  ⟨h.2.2.2.2.2 1 (by decide) (by decide), h.2.2.2.2.1⟩

/-- C7: the overlap test is symmetric, and two intervals never overlap
when one starts at or after the other's end — both for `overlaps` of
`app.py` and for the inline busy-window check of
`get_available_rooms_in_window`. -/
theorem overlaps_symm_and_boundary (a b : Booking) (s e : Int) (busy : Int × Int) :
    overlaps a b = overlaps b a
    ∧ (a.stop ≤ b.start → overlaps a b = false)
    ∧ (b.stop ≤ a.start → overlaps a b = false)
    ∧ window_busy_overlap s e busy = window_busy_overlap busy.1 busy.2 (s, e)
    ∧ (e ≤ busy.1 → window_busy_overlap s e busy = false)
    ∧ (busy.2 ≤ s → window_busy_overlap s e busy = false) := by
  refine ⟨?_, ?_, ?_, ?_, ?_, ?_⟩
  · apply bool_eq_of_iff
    rw [overlaps_eq_true_iff, overlaps_eq_true_iff]
    omega
  · intro h
    cases hov : overlaps a b with
    | false => rfl
    | true =>
      have := (overlaps_eq_true_iff a b).mp hov
      omega
  · intro h
    cases hov : overlaps a b with
    | false => rfl
    | true =>
      have := (overlaps_eq_true_iff a b).mp hov
      omega
  · apply bool_eq_of_iff
    rw [window_busy_overlap_eq_true_iff, window_busy_overlap_eq_true_iff]
    omega
  · intro h
    cases hov : window_busy_overlap s e busy with
    | false => rfl
    | true =>
      have := (window_busy_overlap_eq_true_iff s e busy).mp hov
      omega
  · intro h
    cases hov : window_busy_overlap s e busy with
    | false => rfl
    | true =>
      have := (window_busy_overlap_eq_true_iff s e busy).mp hov
      omega

/-- C7 witness: two concrete touching bookings (10:00–11:00 and
11:00–12:00) do not overlap, and symmetry holds on them. -/
theorem overlaps_symm_and_boundary_witness :
    overlaps ⟨⟨"Room A", 5⟩, 600, 660, 2, "u"⟩ ⟨⟨"Room A", 5⟩, 660, 720, 3, "v"⟩ = false ∧
    window_busy_overlap 0 60 (60, 120) = false :=
  have h := overlaps_symm_and_boundary ⟨⟨"Room A", 5⟩, 600, 660, 2, "u"⟩
    ⟨⟨"Room A", 5⟩, 660, 720, 3, "v"⟩ 0 60 (60, 120)
  ⟨h.2.1 (by decide), h.2.2.2.2.1 (by decide)⟩

/-- C10: the fallback scan never offers negotiation; a negotiation
outcome always refers to the first conflict at the originally requested
time; an offered fallback slot has no overlapping same-room booking, and
every earlier probe was rejected because some same-room booking overlapped
it (no attendee-count condition is involved in rejection). -/
theorem fallback_rejection_and_negotiation_origin (room : Room) (num_people : Int)
    (start duration : Int) (existing : List Booking) :
    (∀ (l : List Nat) (b : Booking),
        scan_fallback room num_people start duration existing l ≠ .negotiation b)
    ∧ (∀ b : Booking,
        suggest_for_request room num_people start duration existing = .negotiation b →
          find_conflicting_booking ⟨room, start, start + duration, num_people, "you"⟩ existing
              = some b
          ∧ b.room.id = room.id
          ∧ overlaps ⟨room, start, start + duration, num_people, "you"⟩ b = true)
    ∧ (∀ (i : Nat) (s e : Int),
        suggest_for_request room num_people start duration existing = .fallback i s e →
          (¬ ∃ b ∈ existing, b.room.id = room.id ∧
              overlaps ⟨room, s, e, num_people, "you"⟩ b = true)
          ∧ ∀ j : Nat, 1 ≤ j → j < i →
              ∃ b ∈ existing, b.room.id = room.id ∧
                overlaps ⟨room, start + 30 * (j : Int),
                  start + 30 * (j : Int) + duration, num_people, "you"⟩ b = true) := by
  refine ⟨fun l b => scan_fallback_ne_negotiation _ _ _ _ _ _ _, ?_, ?_⟩
  · intro b h
    rw [suggest_for_request] at h
    cases hfc : find_conflicting_booking ⟨room, start, start + duration, num_people, "you"⟩
        existing with
    | none =>
      rw [hfc] at h
      cases h
    | some conflict =>
      rw [hfc] at h
      dsimp only at h
      by_cases hlt : conflict.attendees < num_people
      · rw [if_pos hlt] at h
        cases h
        obtain ⟨_, hr, ho⟩ := find_conflicting_eq_some hfc
        exact ⟨rfl, hr, ho⟩
      · rw [if_neg hlt] at h
        exact absurd h (scan_fallback_ne_negotiation _ _ _ _ _ _ _)
  · intro i s e h
    rw [suggest_for_request] at h
    cases hfc : find_conflicting_booking ⟨room, start, start + duration, num_people, "you"⟩
        existing with
    | none =>
      rw [hfc] at h
      cases h
    | some conflict =>
      rw [hfc] at h
      dsimp only at h
      by_cases hlt : conflict.attendees < num_people
      · rw [if_pos hlt] at h
        cases h
      · rw [if_neg hlt] at h
        obtain ⟨_, _, hs, he, hfree, hconf⟩ := scan_range_fallback_spec _ _ _ _ _ _ _ _ h
        subst hs
        subst he
        constructor
        · intro hex
          have htrue := (conflictedAt_true_iff room num_people start duration existing i).mpr hex
          rw [htrue] at hfree
          cases hfree
        · intro j hj1 hji
          exact (conflictedAt_true_iff _ _ _ _ _ _).mp (hconf j hj1 hji)

/-- C10 witness: Room A busy 14:00–15:00 by 5 attendees, request for 5
people at 14:00: the outcome is the fallback slot at offset 2 (15:00),
which overlaps no booking, while probe 1 (14:30) was rejected by an
overlapping booking. -/
theorem fallback_rejection_and_negotiation_origin_witness :
    ¬ ∃ b ∈ [(⟨⟨"Room A", 5⟩, 840, 900, 5, "alice"⟩ : Booking)],
        b.room.id = "Room A" ∧
        overlaps ⟨⟨"Room A", 5⟩, 900, 960, 5, "you"⟩ b = true :=
  have h := (fallback_rejection_and_negotiation_origin ⟨"Room A", 5⟩ 5 840 60
      [⟨⟨"Room A", 5⟩, 840, 900, 5, "alice"⟩]).2.2 2 900 960 (by decide)
  h.1

/-! Embedding of `merge_intervals` from
`suggest_participant_availability.py`. -/

/-- A busy interval, as in the dicts built inside
`determine_for_one_period` (`{"start": ..., "end": ...}`).  The Python
key `end` is called `stop` because `end` is a Lean keyword. -/
structure TimeInterval where
  start : Int
  stop : Int
deriving DecidableEq, Repr

/-- Sort key of `intervals.sort(key=lambda x: x["start"])`. -/
def startLE (a b : TimeInterval) : Prop :=
  a.start ≤ b.start

instance : DecidableRel startLE :=
  fun a b => inferInstanceAs (Decidable (a.start ≤ b.start))

instance : IsTotal TimeInterval startLE :=
  ⟨fun a b => Int.le_total a.start b.start⟩

instance : IsTrans TimeInterval startLE :=
  ⟨fun _ _ _ hab hbc => Int.le_trans hab hbc⟩

/-- The merging pass of `merge_intervals`: `last` is the running merged
interval (`merged[-1]`); a subsequent interval starting at or before
`last`'s end extends it to the max of the two ends, otherwise `last` is
closed and the interval starts a new run. -/
def mergeLoop : TimeInterval → List TimeInterval → List TimeInterval
  | last, [] => [last]
  | last, current :: rest =>
    if current.start ≤ last.stop then
      mergeLoop ⟨last.start, max last.stop current.stop⟩ rest
    else
      last :: mergeLoop current rest

/-- `suggest_participant_availability.py` `merge_intervals`: stable sort
by `start` ascending, then a single merging pass; empty input yields
empty output. -/
def merge_intervals (intervals : List TimeInterval) : List TimeInterval :=
  match intervals.insertionSort startLE with
  | [] => []
  | first :: rest => mergeLoop first rest

/-! Lemmas about `mergeLoop`. -/

theorem mergeLoop_start_le :
    ∀ (rest : List TimeInterval) (last : TimeInterval),
      rest.Pairwise startLE →
      (∀ b ∈ rest, last.start ≤ b.start) →
      ∀ J ∈ mergeLoop last rest, last.start ≤ J.start
  | [], last, _, _, J, hJ => by
    rw [mergeLoop] at hJ
    rcases List.mem_singleton.mp hJ with rfl
    exact le_refl _
  | current :: rest', last, hsort, hle, J, hJ => by
    rw [mergeLoop] at hJ
    obtain ⟨hcur_rest, hsort'⟩ := List.pairwise_cons.mp hsort
    have hlc : last.start ≤ current.start := hle current (List.mem_cons_self _ _)
    split at hJ
    · exact mergeLoop_start_le rest' ⟨last.start, max last.stop current.stop⟩ hsort'
        (fun b hb => le_trans hlc (hcur_rest b hb)) J hJ
    · rcases List.mem_cons.mp hJ with rfl | hJ
      · exact le_refl _
      · exact le_trans hlc (mergeLoop_start_le rest' current hsort' hcur_rest J hJ)

theorem mergeLoop_gap :
    ∀ (rest : List TimeInterval) (last : TimeInterval),
      rest.Pairwise startLE →
      (∀ b ∈ rest, last.start ≤ b.start) →
      (mergeLoop last rest).Pairwise (fun a b => a.stop < b.start)
  | [], last, _, _ => by
    rw [mergeLoop]
    exact List.pairwise_singleton _ _
  | current :: rest', last, hsort, hle => by
    rw [mergeLoop]
    obtain ⟨hcur_rest, hsort'⟩ := List.pairwise_cons.mp hsort
    have hlc : last.start ≤ current.start := hle current (List.mem_cons_self _ _)
    split
    · exact mergeLoop_gap rest' ⟨last.start, max last.stop current.stop⟩ hsort'
        (fun b hb => le_trans hlc (hcur_rest b hb))
    · rename_i hcond
      rw [List.pairwise_cons]
      refine ⟨?_, mergeLoop_gap rest' current hsort' hcur_rest⟩
      intro J hJ
      have hJs := mergeLoop_start_le rest' current hsort' hcur_rest J hJ
      have hlt : last.stop < current.start := by omega
      omega

theorem mergeLoop_valid :
    ∀ (rest : List TimeInterval) (last : TimeInterval),
      last.start < last.stop →
      (∀ I ∈ rest, I.start < I.stop) →
      ∀ J ∈ mergeLoop last rest, J.start < J.stop
  | [], last, hlast, _, J, hJ => by
    rw [mergeLoop] at hJ
    rcases List.mem_singleton.mp hJ with rfl
    exact hlast
  | current :: rest', last, hlast, hvalid, J, hJ => by
    rw [mergeLoop] at hJ
    split at hJ
    · exact mergeLoop_valid rest' ⟨last.start, max last.stop current.stop⟩
        (lt_of_lt_of_le hlast (le_max_left last.stop current.stop))
        (fun I hI => hvalid I (List.mem_cons_of_mem _ hI)) J hJ
    · rcases List.mem_cons.mp hJ with rfl | hJ
      · exact hlast
      · exact mergeLoop_valid rest' current (hvalid current (List.mem_cons_self _ _))
          (fun I hI => hvalid I (List.mem_cons_of_mem _ hI)) J hJ

theorem mergeLoop_union :
    ∀ (rest : List TimeInterval) (last : TimeInterval),
      rest.Pairwise startLE →
      (∀ b ∈ rest, last.start ≤ b.start) →
      ∀ x : Int,
        (∃ J ∈ mergeLoop last rest, J.start ≤ x ∧ x < J.stop) ↔
          ((last.start ≤ x ∧ x < last.stop) ∨ ∃ I ∈ rest, I.start ≤ x ∧ x < I.stop)
  | [], last, _, _, x => by
    rw [mergeLoop]
    simp
  | current :: rest', last, hsort, hle, x => by
    rw [mergeLoop]
    obtain ⟨hcur_rest, hsort'⟩ := List.pairwise_cons.mp hsort
    have hlc : last.start ≤ current.start := hle current (List.mem_cons_self _ _)
    split
    · rename_i hcond
      rw [mergeLoop_union rest' ⟨last.start, max last.stop current.stop⟩ hsort'
        (fun b hb => le_trans hlc (hcur_rest b hb)) x]
      dsimp only
      have hmax1 : last.stop ≤ max last.stop current.stop := le_max_left _ _
      have hmax2 : current.stop ≤ max last.stop current.stop := le_max_right _ _
      have hmax3 := max_choice last.stop current.stop
      constructor
      · rintro (⟨hx1, hx2⟩ | ⟨I, hI, hIx1, hIx2⟩)
        · rcases hmax3 with hm | hm
          · rw [hm] at hx2
            exact Or.inl ⟨hx1, hx2⟩
          · rw [hm] at hx2
            by_cases hxlt : x < last.stop
            · exact Or.inl ⟨hx1, hxlt⟩
            · exact Or.inr ⟨current, List.mem_cons_self _ _, by omega, hx2⟩
        · exact Or.inr ⟨I, List.mem_cons_of_mem _ hI, hIx1, hIx2⟩
      · rintro (⟨hx1, hx2⟩ | ⟨I, hI, hIx1, hIx2⟩)
        · exact Or.inl ⟨hx1, by omega⟩
        · rcases List.mem_cons.mp hI with rfl | hI
          · exact Or.inl ⟨by omega, by omega⟩
          · exact Or.inr ⟨I, hI, hIx1, hIx2⟩
    · rename_i hcond
      constructor
      · rintro ⟨J, hJ, hx⟩
        rcases List.mem_cons.mp hJ with rfl | hJ
        · exact Or.inl hx
        · rcases (mergeLoop_union rest' current hsort' hcur_rest x).mp ⟨J, hJ, hx⟩ with
            h | ⟨I, hI, hx'⟩
          · exact Or.inr ⟨current, List.mem_cons_self _ _, h⟩
          · exact Or.inr ⟨I, List.mem_cons_of_mem _ hI, hx'⟩
      · rintro (h | ⟨I, hI, hx⟩)
        · exact ⟨last, List.mem_cons_self _ _, h⟩
        · rcases List.mem_cons.mp hI with rfl | hI
          · obtain ⟨J, hJ, hx'⟩ :=
              (mergeLoop_union rest' I hsort' hcur_rest x).mpr (Or.inl hx)
            exact ⟨J, List.mem_cons_of_mem _ hJ, hx'⟩
          · obtain ⟨J, hJ, hx'⟩ :=
              (mergeLoop_union rest' current hsort' hcur_rest x).mpr (Or.inr ⟨I, hI, hx⟩)
            exact ⟨J, List.mem_cons_of_mem _ hJ, hx'⟩

theorem mergeLoop_id :
    ∀ (rest : List TimeInterval) (last : TimeInterval),
      (∀ b ∈ rest, last.stop < b.start) →
      rest.Pairwise (fun a b => a.stop < b.start) →
      mergeLoop last rest = last :: rest
  | [], last, _, _ => by
    rw [mergeLoop]
  | current :: rest', last, hlt, hsort => by
    rw [mergeLoop]
    obtain ⟨hcur, hsort'⟩ := List.pairwise_cons.mp hsort
    rw [if_neg (by have := hlt current (List.mem_cons_self _ _); omega)]
    rw [mergeLoop_id rest' current hcur hsort']

/-- C4: on inputs whose intervals all satisfy `start < end`,
`merge_intervals` returns a sequence sorted strictly ascending by start,
pairwise non-overlapping (in fact strictly separated, so touching inputs
are merged), of valid intervals, covering exactly the union of the
inputs; the empty input yields the empty output, a single interval passes
through unchanged, and two merely-touching intervals merge into one. -/
theorem merge_intervals_spec (l : List TimeInterval)
    (hvalid : ∀ I ∈ l, I.start < I.stop) :
    (merge_intervals l).Pairwise (fun a b => a.start < b.start)
    ∧ (merge_intervals l).Pairwise (fun a b => a.stop < b.start)
    ∧ (∀ I ∈ merge_intervals l, I.start < I.stop)
    ∧ (∀ x : Int, (∃ I ∈ merge_intervals l, I.start ≤ x ∧ x < I.stop) ↔
        ∃ I ∈ l, I.start ≤ x ∧ x < I.stop)
    ∧ merge_intervals ([] : List TimeInterval) = []
    ∧ (∀ J : TimeInterval, merge_intervals [J] = [J])
    ∧ merge_intervals [⟨0, 60⟩, ⟨60, 120⟩] = [⟨0, 120⟩] := by
  have hperm : List.Perm (l.insertionSort startLE) l := List.perm_insertionSort startLE l
  have hsorted : (l.insertionSort startLE).Pairwise startLE :=
    List.sorted_insertionSort startLE l
  have hvalid' : ∀ I ∈ l.insertionSort startLE, I.start < I.stop :=
    fun I hI => hvalid I (hperm.mem_iff.mp hI)
  have hnil : merge_intervals ([] : List TimeInterval) = [] := rfl
  have hsingle : ∀ J : TimeInterval, merge_intervals [J] = [J] := fun J => rfl
  have htouch : merge_intervals [⟨0, 60⟩, ⟨60, 120⟩] = [⟨0, 120⟩] := by decide
  cases hms : l.insertionSort startLE with
  | nil =>
    have hl : l = [] := (hms ▸ hperm).symm.eq_nil
    subst hl
    exact ⟨List.Pairwise.nil, List.Pairwise.nil, by simp [merge_intervals],
      by simp [merge_intervals], hnil, hsingle, htouch⟩
  | cons first rest =>
    rw [hms] at hsorted hvalid'
    obtain ⟨hfr, hrest⟩ := List.pairwise_cons.mp hsorted
    have hfr' : ∀ b ∈ rest, first.start ≤ b.start := fun b hb => hfr b hb
    have hmerge : merge_intervals l = mergeLoop first rest := by
      rw [merge_intervals, hms]
    have hmem : ∀ I : TimeInterval, I ∈ first :: rest ↔ I ∈ l := by
      intro I
      rw [← hms]
      exact hperm.mem_iff
    have hgap := mergeLoop_gap rest first hrest hfr'
    have hval := mergeLoop_valid rest first (hvalid' first (List.mem_cons_self _ _))
      (fun I hI => hvalid' I (List.mem_cons_of_mem _ hI))
    refine ⟨?_, ?_, ?_, ?_, hnil, hsingle, htouch⟩
    · rw [hmerge]
      refine List.Pairwise.imp_of_mem ?_ hgap
      intro a b ha hb hab
      have hva := hval a (by rw [← hmerge] at ha; rw [hmerge] at ha; exact ha)
      omega
    · rw [hmerge]
      exact hgap
    · rw [hmerge]
      exact hval
    · intro x
      rw [hmerge, mergeLoop_union rest first hrest hfr' x]
      constructor
      · rintro (h | ⟨I, hI, hx⟩)
        · exact ⟨first, (hmem first).mp (List.mem_cons_self _ _), h⟩
        · exact ⟨I, (hmem I).mp (List.mem_cons_of_mem _ hI), hx⟩
      · rintro ⟨I, hI, hx⟩
        rcases List.mem_cons.mp ((hmem I).mpr hI) with rfl | hIr
        · exact Or.inl hx
        · exact Or.inr ⟨I, hIr, hx⟩

/-- C4 witness: two overlapping intervals merge into one that is
strictly separated (vacuously) and valid, and cover their union. -/
theorem merge_intervals_spec_witness :
    (merge_intervals [⟨0, 60⟩, ⟨30, 90⟩]).Pairwise (fun a b => a.stop < b.start)
    ∧ merge_intervals [⟨0, 60⟩, ⟨60, 120⟩] = [⟨0, 120⟩] :=
  ⟨(merge_intervals_spec [⟨0, 60⟩, ⟨30, 90⟩] (by decide)).2.1,
    (merge_intervals_spec [⟨0, 60⟩, ⟨30, 90⟩] (by decide)).2.2.2.2.2.2⟩

/-- C8: `merge_intervals` is idempotent — on a list that is already
merged (pairwise strictly separated valid intervals, hence sorted), it
returns the list unchanged. -/
theorem merge_intervals_idempotent (l : List TimeInterval)
    (hgap : l.Pairwise (fun a b => a.stop < b.start))
    (hvalid : ∀ I ∈ l, I.start < I.stop) :
    merge_intervals l = l := by
  have hsorted : l.Pairwise startLE := by
    refine List.Pairwise.imp_of_mem ?_ hgap
    intro a b ha hb hab
    exact le_of_lt (lt_trans (hvalid a ha) hab)
  have hms : l.insertionSort startLE = l := List.Sorted.insertionSort_eq hsorted
  rw [merge_intervals, hms]
  cases l with
  | nil => rfl
  | cons first rest =>
    obtain ⟨hfr, hrest⟩ := List.pairwise_cons.mp hgap
    exact mergeLoop_id rest first hfr hrest

/-- C8 witness: an already-merged two-interval list is returned
unchanged. -/
theorem merge_intervals_idempotent_witness :
    merge_intervals [⟨0, 30⟩, ⟨60, 90⟩] = [⟨0, 30⟩, ⟨60, 90⟩] :=
  merge_intervals_idempotent [⟨0, 30⟩, ⟨60, 90⟩] (by decide) (by decide)

/-! Embedding of the work-window segmenter of
`suggest_participant_availability.py`.  Local instants are `Nat` minutes;
`t / 1440` is Python's `date()`, `t % 1440` the time of day, and
`day % 7` is `date.weekday()` (day `0` is a Monday).  The Python `while`
loops advance by one calendar day per iteration, so they are embedded
with an explicit day-count fuel that matches the number of loop
iterations exactly. -/

/-- Loop body of `generate_work_blocks`: iterate `current_day` while
`current_day <= end_day` (`n` counts the remaining days), skip Saturday
(5) and Sunday (6), clamp the `09:00–18:30` block to `[start, stop]` and
keep it when non-empty. -/
def generate_work_blocks_go (start stop : Nat) : Nat → Nat → List (Nat × Nat)
  | _, 0 => []
  | current_day, n + 1 =>
    let rest := generate_work_blocks_go start stop (current_day + 1) n
    if current_day % 7 < 5 then
      let day_start := current_day * 1440 + 540
      let day_end := current_day * 1440 + 1110
      let block_start := max start day_start
      let block_end := min stop day_end
      if block_start < block_end then (block_start, block_end) :: rest else rest
    else rest

/-- `suggest_participant_availability.py` `generate_work_blocks`. -/
def generate_work_blocks (start stop : Nat) : List (Nat × Nat) :=
  generate_work_blocks_go start stop (start / 1440) (stop / 1440 + 1 - start / 1440)

/-- Loop body of `split_working_hours`: while `current < stop`, emit the
three canonical periods of `current`'s day — `09:30–12:00` (work),
`12:00–14:00` (lunch), `14:00–18:30` (work) — clamped to
`[current, stop]`, then jump to the next day's `09:30`. -/
def split_working_hours_go (stop : Nat) : Nat → Nat → List (Nat × Nat × Bool)
  | _, 0 => []
  | current, n + 1 =>
    if current < stop then
      let day := current / 1440
      let b1s := max current (day * 1440 + 570)
      let b1e := min stop (day * 1440 + 720)
      let b2s := max current (day * 1440 + 720)
      let b2e := min stop (day * 1440 + 840)
      let b3s := max current (day * 1440 + 840)
      let b3e := min stop (day * 1440 + 1110)
      ((if b1s < b1e then [(b1s, b1e, false)] else []) ++
        (if b2s < b2e then [(b2s, b2e, true)] else []) ++
        (if b3s < b3e then [(b3s, b3e, false)] else [])) ++
        split_working_hours_go stop ((day + 1) * 1440 + 570) n
    else []

/-- `suggest_participant_availability.py` `split_working_hours`. -/
def split_working_hours (start stop : Nat) : List (Nat × Nat × Bool) :=
  split_working_hours_go stop start (stop / 1440 + 1 - start / 1440)

/-- The segmentation pipeline as used by
`SuggestParticipantAvailability._run` (lines 221 and 227–230): work days
from `generate_work_blocks`, each split by `split_working_hours`. -/
def work_window_segmenter (start stop : Nat) : List (Nat × Nat × Bool) :=
  (generate_work_blocks start stop).flatMap (fun wd => split_working_hours wd.1 wd.2)

theorem generate_go_mem (start stop : Nat) :
    ∀ (n current_day : Nat) (bs be : Nat),
      (bs, be) ∈ generate_work_blocks_go start stop current_day n →
      ∃ d : Nat, d % 7 < 5 ∧ d * 1440 + 540 ≤ bs ∧ be ≤ d * 1440 + 1110 ∧ bs < be
  | 0, _, bs, be, h => by
    rw [generate_work_blocks_go] at h
    cases h
  | n + 1, current_day, bs, be, h => by
    rw [generate_work_blocks_go] at h
    split at h
    · rename_i hwd
      dsimp only at h
      split at h
      · rename_i hne
        rcases List.mem_cons.mp h with heq | h2
        · injection heq with hbs hbe
          subst hbs
          subst hbe
          exact ⟨current_day, hwd, by omega, by omega, hne⟩
        · exact generate_go_mem start stop n (current_day + 1) bs be h2
      · exact generate_go_mem start stop n (current_day + 1) bs be h
    · exact generate_go_mem start stop n (current_day + 1) bs be h

theorem split_go_mem (stop : Nat) :
    ∀ (n current : Nat) (s e : Nat) (b : Bool),
      (s, e, b) ∈ split_working_hours_go stop current n →
      current ≤ s ∧ s < e ∧ e ≤ stop ∧
        (s / 1440) * 1440 + 570 ≤ s ∧ e ≤ (s / 1440) * 1440 + 1110 ∧
        (b = true → (s / 1440) * 1440 + 720 ≤ s ∧ e ≤ (s / 1440) * 1440 + 840)
  | 0, _, s, e, b, h => by
    rw [split_working_hours_go] at h
    cases h
  | n + 1, current, s, e, b, h => by
    rw [split_working_hours_go] at h
    split at h
    · rename_i hcur
      dsimp only at h
      rcases List.mem_append.mp h with hin | hrec
      · rcases List.mem_append.mp hin with hin2 | h3
        · rcases List.mem_append.mp hin2 with h1 | h2
          · split at h1
            · rename_i hne
              rcases List.mem_singleton.mp h1 with heq
              injection heq with hs heq2
              injection heq2 with he hb
              subst hs
              subst he
              subst hb
              refine ⟨by omega, hne, by omega, by omega, by omega, ?_⟩
              intro hb
              cases hb
            · cases h1
          · split at h2
            · rename_i hne
              rcases List.mem_singleton.mp h2 with heq
              injection heq with hs heq2
              injection heq2 with he hb
              subst hs
              subst he
              subst hb
              refine ⟨by omega, hne, by omega, by omega, by omega, fun _ => ⟨by omega, by omega⟩⟩
            · cases h2
        · split at h3
          · rename_i hne
            rcases List.mem_singleton.mp h3 with heq
            injection heq with hs heq2
            injection heq2 with he hb
            subst hs
            subst he
            subst hb
            refine ⟨by omega, hne, by omega, by omega, by omega, ?_⟩
            intro hb
            cases hb
          · cases h3
      · have ih := split_go_mem stop n ((current / 1440 + 1) * 1440 + 570) s e b hrec
        exact ⟨by have := ih.1; omega, ih.2.1, ih.2.2.1, ih.2.2.2.1, ih.2.2.2.2.1,
          ih.2.2.2.2.2⟩
    · cases h

/-- C5: every sub-interval emitted by the work-window segmenter lies
entirely inside the `09:30–18:30` span of a single weekday (never a
Saturday or Sunday, `d % 7 ∈ {5, 6}` with day 0 a Monday), and every
lunch-tagged sub-interval starts at or after 12:00 and ends at or before
14:00 of that day. -/
theorem segmenter_weekday_and_lunch_bounds (start stop : Nat) (s e : Nat) (b : Bool)
    (hmem : (s, e, b) ∈ work_window_segmenter start stop) :
    ∃ d : Nat, d % 7 < 5 ∧ d * 1440 ≤ s ∧ s < e ∧ e ≤ d * 1440 + 1110 ∧
      d * 1440 + 570 ≤ s ∧
      (b = true → d * 1440 + 720 ≤ s ∧ e ≤ d * 1440 + 840) := by
  rw [work_window_segmenter] at hmem
  obtain ⟨wd, hwd, hsplit⟩ := List.mem_flatMap.mp hmem
  obtain ⟨d, hd5, hdbs, hdbe, hbsbe⟩ :=
    generate_go_mem start stop _ _ wd.1 wd.2 hwd
  obtain ⟨hcs, hse, hes, h570, h1110, hlunch⟩ :=
    split_go_mem wd.2 _ wd.1 s e b hsplit
  have hsd : s / 1440 = d := by omega
  rw [hsd] at h570 h1110 hlunch
  exact ⟨d, hd5, by omega, hse, by omega, h570, hlunch⟩

/-- C5 witness: for the range Monday 09:00–18:30 (day 0), the lunch
period 12:00–14:00 is emitted and the theorem yields its weekday and
lunch bounds. -/
theorem segmenter_weekday_and_lunch_bounds_witness :
    ∃ d : Nat, d % 7 < 5 ∧ d * 1440 ≤ 720 ∧ 720 < 840 ∧ 840 ≤ d * 1440 + 1110 ∧
      d * 1440 + 570 ≤ 720 ∧
      (true = true → d * 1440 + 720 ≤ 720 ∧ 840 ≤ d * 1440 + 840) :=
  segmenter_weekday_and_lunch_bounds 540 1110 720 840 true (by decide)

/-! Embedding of the result-accumulation loop of
`SuggestParticipantAvailability._run` (lines 227–248).  The per-work-day
slot lists (built from the external calendar data by
`determine_for_one_period`) are taken as given; the loop extends
`results` with each day's slots and, after each day, truncates to the
first 10 and stops as soon as more than 10 have accumulated. -/
def accumulate_results {α : Type} : List (List α) → List α → List α
  | [], results => results
  | day_slots :: rest, results =>
    let results' := results ++ day_slots
    if results'.length > 10 then results'.take 10
    else accumulate_results rest results'

/-- C9: the day loop of `SuggestParticipantAvailability._run` never
returns more than 10 slots: starting from at most 10 accumulated results
the final list has at most 10 entries (in particular from the empty
accumulator), and as soon as a day pushes the count above 10 the list is
truncated to the first 10 and the remaining days are ignored. -/
theorem accumulate_results_capped {α : Type} :
    (∀ (dayResults : List (List α)) (acc : List α), acc.length ≤ 10 →
      (accumulate_results dayResults acc).length ≤ 10)
    ∧ (∀ dayResults : List (List α), (accumulate_results dayResults []).length ≤ 10)
    ∧ (∀ (d : List α) (rest : List (List α)) (acc : List α),
        (acc ++ d).length > 10 →
        accumulate_results (d :: rest) acc = (acc ++ d).take 10) := by
  have hbound : ∀ (dayResults : List (List α)) (acc : List α), acc.length ≤ 10 →
      (accumulate_results dayResults acc).length ≤ 10 := by
    intro dayResults
    induction dayResults with
    | nil =>
      intro acc h
      rw [accumulate_results]
      exact h
    | cons d rest ih =>
      intro acc h
      rw [accumulate_results]
      split
      · exact List.length_take_le _ _
      · rename_i hlen
        exact ih _ (by simp at hlen ⊢; omega)
  refine ⟨hbound, fun dayResults => hbound dayResults [] (by simp), ?_⟩
  intro d rest acc h
  rw [accumulate_results]
  rw [if_pos h]

/-- C9 witness: a first day with 11 slots is truncated to 10 and the
second day is never processed. -/
theorem accumulate_results_capped_witness :
    accumulate_results [[1, 2, 3, 4, 5, 6, 7, 8, 9, 10, 11], [12]] ([] : List Nat)
        = [1, 2, 3, 4, 5, 6, 7, 8, 9, 10]
    ∧ (accumulate_results [[0, 0, 0, 0, 0, 0], [0, 0, 0, 0, 0, 0]] ([] : List Nat)).length
        ≤ 10 :=
  ⟨(accumulate_results_capped.2.2 [1, 2, 3, 4, 5, 6, 7, 8, 9, 10, 11] [[12]] []
      (by decide)).trans (by decide),
    accumulate_results_capped.2.1 [[0, 0, 0, 0, 0, 0], [0, 0, 0, 0, 0, 0]]⟩

/-! Claims C3 and C6, about the chunk loop of
`CheckRoomAvailability._run` and error identifiers. -/

/-- C3: the early-exit predicate of the chunk loop,
`all([x for x in resp if len(x["available_rooms"]) > 0])`, iterates over
*window dicts* (always truthy, `all` of an empty list also being true),
so it is true for every `resp` — the loop always stops after the first
chunk.  Concretely, with two chunks where the first chunk's only room is
busy, the loop returns a window with an empty free list and never
queries the second chunk, whose room is free. -/
theorem chunk_early_exit_fires_unconditionally :
    (∀ resp : List WindowResp, do_all_windows_have_available_rooms resp = true)
    ∧ (∀ (cap : String → Int) (fb : List (String × CalInfo))
        (rest : List (List (String × CalInfo))) (resp : List WindowResp),
        check_room_availability_loop cap (fb :: rest) resp
          = resp.map (update_window cap fb))
    ∧ check_room_availability_loop (fun _ => 1)
        [[("r1", ⟨[(0, 60)], false⟩)], [("r2", ⟨[], false⟩)]] [⟨0, 60, []⟩]
        = [⟨0, 60, []⟩]
    ∧ get_available_rooms_in_window [("r2", ⟨[], false⟩)] 0 60 = ["r2"] := by
  have hall : ∀ resp : List WindowResp, do_all_windows_have_available_rooms resp = true := by
    intro resp
    rw [do_all_windows_have_available_rooms, List.all_eq_true]
    intro x _
    rfl
  refine ⟨hall, ?_, by decide, by decide⟩
  intro cap fb rest resp
  rw [check_room_availability_loop]
  rw [hall (resp.map (update_window cap fb))]
  rfl

theorem mem_get_available_rooms_key :
    ∀ (fb : List (String × CalInfo)) (s e : Int) (cid : String),
      cid ∈ get_available_rooms_in_window fb s e → cid ∈ fb.map Prod.fst
  | [], s, e, cid, h => by
    rw [get_available_rooms_in_window] at h
    cases h
  | (c, i) :: rest, s, e, cid, h => by
    rw [get_available_rooms_in_window] at h
    have hmap : ((c, i) :: rest).map Prod.fst = c :: rest.map Prod.fst := rfl
    rw [hmap]
    split at h
    · exact List.mem_cons_of_mem _ (mem_get_available_rooms_key rest s e cid h)
    · split at h
      · rcases List.mem_cons.mp h with rfl | h2
        · exact List.mem_cons_self _ _
        · exact List.mem_cons_of_mem _ (mem_get_available_rooms_key rest s e cid h2)
      · exact List.mem_cons_of_mem _ (mem_get_available_rooms_key rest s e cid h)

/-- C6 (amended): in a freebusy response with unique identifiers (Python
dict keys), an identifier whose entry carries a truthy error is excluded
from the window's free list — it is treated neither as free nor as busy.
(It is *not* reported separately: see the counterexample theorem, the
result contains no trace of it.) -/
theorem error_identifier_excluded (fb : List (String × CalInfo)) (s e : Int)
    (cid : String) (info : CalInfo)
    (hnodup : (fb.map Prod.fst).Nodup)
    (hmem : (cid, info) ∈ fb) (herr : info.errors = true) :
    cid ∉ get_available_rooms_in_window fb s e := by
  induction fb with
  | nil => cases hmem
  | cons p rest ih =>
    obtain ⟨c, i⟩ := p
    have hmap : ((c, i) :: rest).map Prod.fst = c :: rest.map Prod.fst := rfl
    rw [hmap] at hnodup
    obtain ⟨hc_notin, hnodup'⟩ := List.nodup_cons.mp hnodup
    rw [get_available_rooms_in_window]
    rcases List.mem_cons.mp hmem with heq | hmem'
    · injection heq with h1 h2
      subst h1
      subst h2
      rw [if_pos herr]
      intro habs
      exact hc_notin (mem_get_available_rooms_key rest s e cid habs)
    · have hkey : cid ∈ rest.map Prod.fst :=
        List.mem_map_of_mem Prod.fst hmem'
      split
      · exact ih hnodup' hmem'
      · split
        · intro habs
          rcases List.mem_cons.mp habs with rfl | habs'
          · exact hc_notin hkey
          · exact ih hnodup' hmem' habs'
        · exact ih hnodup' hmem'

/-- C6 witness: a concrete erroring identifier is not in the free list. -/
theorem error_identifier_excluded_witness :
    "r1" ∉ get_available_rooms_in_window [("r1", ⟨[], true⟩), ("r2", ⟨[], false⟩)] 0 60 :=
  error_identifier_excluded [("r1", ⟨[], true⟩), ("r2", ⟨[], false⟩)] 0 60 "r1"
    ⟨[], true⟩ (by decide) (by decide) rfl

/-- C6 counterexample: nothing in the batch availability output reports
an erroring identifier — the output on a chunk containing an erroring
identifier is identical to the output on the same chunk with that
identifier never queried at all, both for the free list of
`get_available_rooms_in_window` and for the full window responses of the
chunk loop.  The free list and the window structure carry no error
field, so no per-identifier error is surfaced alongside the results. -/
theorem error_identifier_silently_dropped :
    get_available_rooms_in_window [("r1", ⟨[], true⟩), ("r2", ⟨[], false⟩)] 0 60
      = get_available_rooms_in_window [("r2", ⟨[], false⟩)] 0 60
    ∧ check_room_availability_loop (fun _ => 1)
        [[("r1", ⟨[], true⟩), ("r2", ⟨[], false⟩)]] [⟨0, 60, []⟩]
      = check_room_availability_loop (fun _ => 1) [[("r2", ⟨[], false⟩)]] [⟨0, 60, []⟩] :=
  ⟨by decide, by decide⟩

end Meetings
